import Mathlib

/-!
Verification development for the two build scripts of the manifesto repository.

The scripts are straight-line string programs: each reads a source document,
converts it to an HTML fragment (via an external library, modelled as an
oracle), performs regex/string surgery on the fragment and on the destination
template, and writes the template back.  Strings are modelled as `List Char`;
the JavaScript regexes used by the scripts (all of the shape
`lit1[\s\S]*?lit2`, `<img[^>]*>`, `<img[^>]*class="remove-me"[^>]*>`,
`<ol>[\s\S]*?<\/ol>\s*$`) are modelled by explicit leftmost-match scanners,
and `String.prototype.replace` is modelled including its `$`-substitution
patterns (`$$`, `$&`, a dollar followed by a backquote, a dollar followed by
a single quote).
-/

/-- First index of `s` at which `pat` starts as a substring (JS `indexOf`,
also the start of the leftmost regex match attempt). -/
def firstOcc (pat : List Char) : List Char → Option Nat
  | [] => if List.isPrefixOf pat ([] : List Char) then some 0 else none
  | c :: rest =>
    if List.isPrefixOf pat (c :: rest) then some 0
    else (firstOcc pat rest).map (· + 1)

/-- Last index of `s` at which `pat` starts as a substring (JS `lastIndexOf`).
Used only with nonempty patterns. -/
def lastOcc (pat : List Char) : List Char → Option Nat
  | [] => none
  | c :: rest =>
    match lastOcc pat rest with
    | some j => some (j + 1)
    | none => if List.isPrefixOf pat (c :: rest) then some 0 else none

/-- Whether `pat` occurs as a substring (JS `String.prototype.includes`). -/
def containsSub (pat : List Char) : List Char → Bool
  | [] => List.isPrefixOf pat ([] : List Char)
  | c :: rest => List.isPrefixOf pat (c :: rest) || containsSub pat rest

/-- Number of positions of `s` at which `pat` starts (overlapping counted). -/
def countOcc (pat : List Char) : List Char → Nat
  | [] => 0
  | c :: rest => (if List.isPrefixOf pat (c :: rest) then 1 else 0) + countOcc pat rest

/-- Leftmost match of the regex `openT[\s\S]*?closeT` (both tags literal,
nonempty): returns `(start, endExclusive)`.  The lazy `[\s\S]*?` stops at the
first occurrence of `closeT` after the open tag; on failure at a position the
scan moves one character right, exactly like the regex engine. -/
def tryMatch (openT closeT : List Char) : List Char → Option (Nat × Nat)
  | [] => none
  | c :: rest =>
    if List.isPrefixOf openT (c :: rest) then
      match firstOcc closeT ((c :: rest).drop openT.length) with
      | some j => some (0, openT.length + j + closeT.length)
      | none => (tryMatch openT closeT rest).map (fun p => (p.1 + 1, p.2 + 1))
    else (tryMatch openT closeT rest).map (fun p => (p.1 + 1, p.2 + 1))

def dollarC : Char := '$'

def ampC : Char := '&'

/-- The backquote character. -/
def backC : Char := Char.ofNat 96

/-- The single-quote character. -/
def quotC : Char := Char.ofNat 39

/-- The GetSubstitution operation of ECMAScript `String.prototype.replace` with a string
replacement argument and a capture-group-free pattern: `$$` inserts a dollar,
`$&` the matched text, a dollar followed by a backquote the text before the
match, a dollar followed by a single quote the text after the match; any
other dollar sequence is literal. -/
def expandRepl : List Char → List Char → List Char → List Char → List Char
  | [], _, _, _ => []
  | [c], _, _, _ => [c]
  | c :: d :: rest2, matched, before, after =>
    if c = dollarC then
      if d = dollarC then dollarC :: expandRepl rest2 matched before after
      else if d = ampC then matched ++ expandRepl rest2 matched before after
      else if d = backC then before ++ expandRepl rest2 matched before after
      else if d = quotC then after ++ expandRepl rest2 matched before after
      else c :: expandRepl (d :: rest2) matched before after
    else c :: expandRepl (d :: rest2) matched before after

/-- Whether a replacement string contains one of the special
`$`-substitution sequences recognized by `String.prototype.replace` for a
capture-group-free pattern. -/
def hasReplSeq (s : List Char) : Bool :=
  containsSub [dollarC, dollarC] s || containsSub [dollarC, ampC] s ||
    containsSub [dollarC, backC] s || containsSub [dollarC, quotC] s

/-- Model of `s.replace(/openT[\s\S]*?closeT/, repl)`: replace the first match, with
`$`-substitution in the replacement string. -/
def jsReplace1 (openT closeT repl s : List Char) : List Char :=
  match tryMatch openT closeT s with
  | none => s
  | some (i, e) =>
    s.take i ++ expandRepl repl ((s.drop i).take (e - i)) (s.take i) (s.drop e) ++ s.drop e

/-- Model of `s.replace(pat, repl)` with a plain string pattern: replace the first
occurrence of `pat`, with `$`-substitution in the replacement string. -/
def jsReplaceStr (pat repl s : List Char) : List Char :=
  match firstOcc pat s with
  | none => s
  | some i =>
    s.take i ++ expandRepl repl pat (s.take i) (s.drop (i + pat.length)) ++ s.drop (i + pat.length)

/-- JS whitespace (`\s` of the regex dialect, which coincides with the
character set removed by `String.prototype.trim`). -/
def wsChar (c : Char) : Bool :=
  c = ' ' || c = '\t' || c = '\n' || c = '\r' ||
  c = Char.ofNat 11 || c = Char.ofNat 12 ||
  c = Char.ofNat 0x00A0 || c = Char.ofNat 0x1680 ||
  (0x2000 ≤ c.toNat && c.toNat ≤ 0x200A) ||
  c = Char.ofNat 0x2028 || c = Char.ofNat 0x2029 ||
  c = Char.ofNat 0x202F || c = Char.ofNat 0x205F ||
  c = Char.ofNat 0x3000 || c = Char.ofNat 0xFEFF

def trimLeft (s : List Char) : List Char := s.dropWhile wsChar

def trimRight (s : List Char) : List Char := (s.reverse.dropWhile wsChar).reverse

/-- JS `String.prototype.trim`. -/
def trim (s : List Char) : List Char := trimRight (trimLeft s)

def allWs (s : List Char) : Bool := s.all wsChar

/-- Literal tags and fixed strings appearing in the scripts. -/
def articleOpenT : List Char := "<article>".toList

def articleCloseT : List Char := "</article>".toList

def citationsOpenT : List Char := "<div class=\"citations\">".toList

def citationsCloseT : List Char := "</div>".toList

def olOpenT : List Char := "<ol>".toList

def olCloseT : List Char := "</ol>".toList

def imgOpenT : List Char := "<img".toList

def removeMeAttrT : List Char := "class=\"remove-me\"".toList

def footnoteMarkT : List Char := "footnote-".toList

def upArrowT : List Char := "↑".toList

/-- The banner line prepended by the DOCX script (including the trailing
newline of the template literal). -/
def bannerHtml : List Char :=
  "<img src=\"banner.png\" alt=\"Banner\" style=\"width: 100%; height: auto; display: block; margin: 0 auto 30px;\">\n".toList

/-- Opening part inserted around footnotes:
`'<div class="citations">\n<h2>References</h2>\n'`. -/
def citationsHeadT : List Char := "<div class=\"citations\">\n<h2>References</h2>\n".toList

/-- Closing part inserted around footnotes: `'\n</div>'`. -/
def citationsTailT : List Char := "\n</div>".toList

/-- The test `articleRegex.test(s)` for `/<article>[\s\S]*?<\/article>/`. -/
def articleTest (s : List Char) : Bool := (tryMatch articleOpenT articleCloseT s).isSome

/-- The template literal `` `<article>\n${htmlContent}\n</article>` ``. -/
def newArticleT (htmlContent : List Char) : List Char :=
  articleOpenT ++ '\n' :: (htmlContent ++ '\n' :: articleCloseT)

/-- Split at the first occurrence of character `t`: returns the segment
before it and the remainder after it. -/
def splitAtChar (t : Char) : List Char → Option (List Char × List Char)
  | [] => none
  | c :: rest =>
    if c = t then some ([], rest)
    else (splitAtChar t rest).map (fun p => (c :: p.1, p.2))

/-- Fuelled global scan for `/<img[^>]*>/g` (with `needRemoveMe = false`) or
`/<img[^>]*class="remove-me"[^>]*>/g` (with `needRemoveMe = true`), deleting
every match.  A match at position `i` requires the literal `<img`, a `>`
somewhere after it (the match ends at the first such `>`), and — in the
`needRemoveMe` case — the literal `class="remove-me"` before that `>`.
On a failed candidate the scan advances one character, on a successful match
it resumes after the match, exactly like `String.prototype.replace` with a
global regex.  Fuel `s.length` always suffices since every step consumes at
least one character. -/
def stripImgsF (needRemoveMe : Bool) : Nat → List Char → List Char
  | 0, s => s
  | _ + 1, [] => []
  | fuel + 1, c :: rest =>
    if List.isPrefixOf imgOpenT (c :: rest) then
      match splitAtChar '>' (rest.drop 3) with
      | some (seg, after) =>
        if !needRemoveMe || containsSub removeMeAttrT seg then
          stripImgsF needRemoveMe fuel after
        else c :: stripImgsF needRemoveMe fuel rest
      | none => c :: stripImgsF needRemoveMe fuel rest
    else c :: stripImgsF needRemoveMe fuel rest

def stripImgs (needRemoveMe : Bool) (s : List Char) : List Char :=
  stripImgsF needRemoveMe s.length s

/-- One candidate of the fallback regex `/<ol>[\s\S]*?<\/ol>\s*$/`: is there a
`</ol>` in `s` followed only by whitespace up to the end of the string? -/
def existsOlCloseWs : List Char → Bool
  | [] => false
  | c :: rest =>
    (List.isPrefixOf olCloseT (c :: rest) && allWs ((c :: rest).drop 5)) || existsOlCloseWs rest

/-- Start of the leftmost match of `/<ol>[\s\S]*?<\/ol>\s*$/`.  Since `\s*`
is greedy and the pattern is anchored at the end, such a match always
extends to the end of the string, so the start index determines it. -/
def anchoredOlStart : List Char → Option Nat
  | [] => none
  | c :: rest =>
    if List.isPrefixOf olOpenT (c :: rest) && existsOlCloseWs (rest.drop 3) then some 0
    else (anchoredOlStart rest).map (· + 1)

def hasFootnoteMark (s : List Char) : Bool :=
  containsSub footnoteMarkT s || containsSub upArrowT s

/-- Step 3 of the DOCX normalizer (source lines 74-101): if the trimmed
fragment ends with `</ol>`, locate the last `<ol>` by `lastIndexOf` and, when
the suffix from there contains a footnote marker (`'footnote-'` or the
up-arrow glyph), wrap that suffix in the citations container; otherwise fall
back to the end-anchored regex search and a plain string `replace`. -/
def fixFootnotes (htmlContent : List Char) : List Char :=
  if List.isSuffixOf olCloseT (trim htmlContent) then
    match lastOcc olOpenT htmlContent with
    | some lastOlIndex =>
      if hasFootnoteMark (htmlContent.drop lastOlIndex) then
        htmlContent.take lastOlIndex ++ citationsHeadT ++ htmlContent.drop lastOlIndex ++ citationsTailT
      else htmlContent
    | none => htmlContent
  else
    match anchoredOlStart htmlContent with
    | some i =>
      if hasFootnoteMark (htmlContent.drop i) then
        jsReplaceStr (htmlContent.drop i)
          (citationsHeadT ++ htmlContent.drop i ++ citationsTailT) htmlContent
      else htmlContent
    | none => htmlContent

/-- Step 2 of the DOCX normalizer (source line 67): prepend the banner to
the whole fragment. -/
def prependBanner (htmlContent : List Char) : List Char :=
  bannerHtml ++ htmlContent

/-- The DOCX ContentNormalizer (source lines 52-101): remove sentinel-class
images, remove all remaining images, prepend the banner, fix footnotes. -/
def normalizeContent (htmlContent : List Char) : List Char :=
  fixFootnotes (prependBanner (stripImgs false (stripImgs true htmlContent)))

/-- A DOCX embedded image as seen by the Mammoth image handler; the handler
reads its contents as base64. -/
structure DocxImage where
  base64Contents : List Char

/-- The attribute object returned by the custom image handler. -/
structure ImgElementAttrs where
  src : List Char
  cls : List Char
deriving DecidableEq

/-- The fixed 1×1 transparent GIF data URI used as the placeholder source. -/
def transparentGifSrc : List Char :=
  "data:image/gif;base64,R0lGODlhAQABAIAAAAAAAP///yH5BAEAAAAALAAAAAABAAEAAAIBRAA7".toList

/-- The custom `convertImage` handler (source lines 24-35): it reads the
image contents as base64 and then ignores them, returning the fixed
placeholder object with the sentinel class. -/
def convertImage (image : DocxImage) : ImgElementAttrs :=
  let _imageBuffer := image.base64Contents
  { src := transparentGifSrc, cls := "remove-me".toList }

/-- Environment of one run of the Markdown script: results of the fallible
operations (`none` models a thrown exception). -/
structure MdWorld where
  readSource : Option (List Char)
  convert : List Char → Option (List Char)
  readIndex : Option (List Char)
  writeOk : Bool

/-- Observable outcome of one run of the Markdown script. -/
structure MdOutcome where
  exitCode : Nat
  written : Option (List Char)
  errorLogged : Bool
  successLogged : Bool
deriving DecidableEq

/-- Environment of one run of the DOCX script. -/
structure DocxWorld where
  sourceExists : Bool
  convert : Option (List Char)
  readIndex : Option (List Char)
  writeOk : Bool

/-- Observable outcome of one run of the DOCX script. -/
structure DocxOutcome where
  exitCode : Nat
  written : Option (List Char)
  errorLogged : Bool
  instructionLogged : Bool
  conversionRan : Bool
  successLogged : Bool
deriving DecidableEq

/-- The Markdown script `build-manifesto.js`: everything runs inside one
`try`; the `catch` only logs, leaving the default exit code 0; a missing
`<article>` region logs an error and exits 1 before any write. -/
def runMd (w : MdWorld) : MdOutcome :=
  match w.readSource with
  | none => ⟨0, none, true, false⟩
  | some markdown =>
    match w.convert markdown with
    | none => ⟨0, none, true, false⟩
    | some htmlContent =>
      match w.readIndex with
      | none => ⟨0, none, true, false⟩
      | some indexHtml =>
        if articleTest indexHtml then
          let updated := jsReplace1 articleOpenT articleCloseT (newArticleT htmlContent) indexHtml
          if w.writeOk then ⟨0, some updated, false, true⟩
          else ⟨0, none, true, false⟩
        else ⟨1, none, true, false⟩

/-- The DOCX script: explicit pre-flight existence check (exit 1 with an
instruction message before any conversion), then conversion, normalization,
injection into the first `<article>` region, removal of the first
`<div class="citations">…</div>` block from the already-injected document,
and the write; the promise `catch` logs and exits 1. -/
def runDocx (w : DocxWorld) : DocxOutcome :=
  if w.sourceExists then
    match w.convert with
    | none => ⟨1, none, true, false, true, false⟩
    | some rawHtml =>
      let htmlContent := normalizeContent rawHtml
      match w.readIndex with
      | none => ⟨1, none, true, false, true, false⟩
      | some indexHtml =>
        if articleTest indexHtml then
          let injected := jsReplace1 articleOpenT articleCloseT (newArticleT htmlContent) indexHtml
          let final := jsReplace1 citationsOpenT citationsCloseT [] injected
          if w.writeOk then ⟨0, some final, false, false, true, true⟩
          else ⟨1, none, true, false, true, false⟩
        else ⟨1, none, true, false, true, false⟩
  else ⟨1, none, true, true, false, false⟩

/-- Final contents of `manifesto/index.html` after a run: the written
document if the script wrote, otherwise the previous contents. -/
def fsAfter (old : List Char) (written : Option (List Char)) : List Char :=
  written.getD old

/-! ## Claim theorems: error handling and simple functional claims -/

/-- C9: the DOCX conversion's custom image handler returns, for every
embedded image, the same fixed 1×1 transparent placeholder marked with the
sentinel class `remove-me`, never the original image bytes. -/
theorem c9_image_handler_fixed_placeholder :
    ∀ image : DocxImage,
      convertImage image = { src := transparentGifSrc, cls := "remove-me".toList } ∧
      ∀ image2 : DocxImage, convertImage image = convertImage image2 :=
  fun _ => ⟨rfl, fun _ => rfl⟩

/-- C3: whenever the content-region regex finds no `<article>…</article>`
match in the template, both pipelines log an error, terminate with exit
code 1, and never write, so the template contents are left exactly as they
were. -/
theorem c3_no_region_logs_exits_no_write :
    (∀ (w : MdWorld) (md html idx : List Char),
        w.readSource = some md → w.convert md = some html → w.readIndex = some idx →
        articleTest idx = false →
        runMd w = ⟨1, none, true, false⟩ ∧ ∀ old, fsAfter old (runMd w).written = old) ∧
    (∀ (w : DocxWorld) (raw idx : List Char),
        w.sourceExists = true → w.convert = some raw → w.readIndex = some idx →
        articleTest idx = false →
        runDocx w = ⟨1, none, true, false, true, false⟩ ∧
          ∀ old, fsAfter old (runDocx w).written = old) := by
  constructor
  · intro w md html idx h1 h2 h3 h4
    constructor
    · simp [runMd, h1, h2, h3, h4]
    · intro old
      simp [runMd, h1, h2, h3, h4, fsAfter]
  · intro w raw idx h1 h2 h3 h4
    constructor
    · simp [runDocx, h1, h2, h3, h4]
    · intro old
      simp [runDocx, h1, h2, h3, h4, fsAfter]

/-- Witness for C3 at concrete worlds whose template has no article region. -/
theorem c3_witness :
    runMd ⟨some "# t".toList, fun _ => some "<p>x</p>".toList, some "no tags here".toList, true⟩
        = ⟨1, none, true, false⟩ ∧
      runDocx ⟨true, some "<p>x</p>".toList, some "no tags here".toList, true⟩
        = ⟨1, none, true, false, true, false⟩ :=
  ⟨(c3_no_region_logs_exits_no_write.1 _ _ _ _ rfl rfl rfl (by decide)).1,
   (c3_no_region_logs_exits_no_write.2 _ _ _ rfl rfl rfl (by decide)).1⟩

/-- C7: a missing source file makes the DOCX pipeline print the instruction
message and exit 1 before any conversion, and in either pipeline a missing
source terminates the run without the template ever being written, so the
previous template contents survive. -/
theorem c7_missing_source_preserves_template :
    (∀ w : DocxWorld, w.sourceExists = false →
        runDocx w = ⟨1, none, true, true, false, false⟩ ∧
          ∀ old, fsAfter old (runDocx w).written = old) ∧
    (∀ w : MdWorld, w.readSource = none →
        runMd w = ⟨0, none, true, false⟩ ∧ ∀ old, fsAfter old (runMd w).written = old) := by
  constructor
  · intro w h
    refine ⟨by simp [runDocx, h], fun old => by simp [runDocx, h, fsAfter]⟩
  · intro w h
    refine ⟨by simp [runMd, h], fun old => by simp [runMd, h, fsAfter]⟩

/-- Witness for C7 at concrete worlds with an absent source document. -/
theorem c7_witness :
    runDocx ⟨false, some "<p>x</p>".toList, some "<article>a</article>".toList, true⟩
        = ⟨1, none, true, true, false, false⟩ ∧
      runMd ⟨none, fun _ => some "<p>x</p>".toList, some "<article>a</article>".toList, true⟩
        = ⟨0, none, true, false⟩ :=
  ⟨(c7_missing_source_preserves_template.1 _ rfl).1,
   (c7_missing_source_preserves_template.2 _ rfl).1⟩

/-- C6: when conversion or a filesystem read/write operation fails, the
failure is caught at the top level and logged; the Markdown pipeline leaves
the exit code 0 in that case, while the DOCX pipeline exits 1. -/
theorem c6_caught_failure_exit_codes :
    (∀ w : MdWorld,
        (w.readSource = none ∨
          (∃ md, w.readSource = some md ∧ w.convert md = none) ∨
          (∃ md html, w.readSource = some md ∧ w.convert md = some html ∧
            w.readIndex = none) ∨
          (∃ md html idx, w.readSource = some md ∧ w.convert md = some html ∧
            w.readIndex = some idx ∧ articleTest idx = true ∧ w.writeOk = false)) →
        (runMd w).exitCode = 0 ∧ (runMd w).errorLogged = true ∧
          (runMd w).successLogged = false) ∧
    (∀ w : DocxWorld, w.sourceExists = true →
        (w.convert = none ∨
          (∃ raw, w.convert = some raw ∧ w.readIndex = none) ∨
          (∃ raw idx, w.convert = some raw ∧ w.readIndex = some idx ∧
            articleTest idx = true ∧ w.writeOk = false)) →
        (runDocx w).exitCode = 1 ∧ (runDocx w).errorLogged = true ∧
          (runDocx w).successLogged = false) := by
  constructor
  · intro w hcase
    rcases hcase with h | ⟨md, h1, h2⟩ | ⟨md, html, h1, h2, h3⟩ | ⟨md, html, idx, h1, h2, h3, h4, h5⟩
    · simp [runMd, h]
    · simp [runMd, h1, h2]
    · simp [runMd, h1, h2, h3]
    · simp [runMd, h1, h2, h3, h4, h5]
  · intro w hsrc hcase
    rcases hcase with h | ⟨raw, h1, h2⟩ | ⟨raw, idx, h1, h2, h3, h4⟩
    · simp [runDocx, hsrc, h]
    · simp [runDocx, hsrc, h1, h2]
    · simp [runDocx, hsrc, h1, h2, h3, h4]

/-- Witness for C6: a failing conversion in the Markdown pipeline and a
failing write in the DOCX pipeline. -/
theorem c6_witness :
    ((runMd ⟨some "# t".toList, fun _ => none, some "<article>a</article>".toList, true⟩).exitCode
        = 0 ∧
      (runMd ⟨some "# t".toList, fun _ => none, some "<article>a</article>".toList,
          true⟩).errorLogged = true) ∧
    ((runDocx ⟨true, some "<p>x</p>".toList, some "<article>a</article>".toList,
          false⟩).exitCode = 1 ∧
      (runDocx ⟨true, some "<p>x</p>".toList, some "<article>a</article>".toList,
          false⟩).errorLogged = true) := by
  have h1 := c6_caught_failure_exit_codes.1
    ⟨some "# t".toList, fun _ => none, some "<article>a</article>".toList, true⟩
    (Or.inr (Or.inl ⟨"# t".toList, rfl, rfl⟩))
  have h2 := c6_caught_failure_exit_codes.2
    ⟨true, some "<p>x</p>".toList, some "<article>a</article>".toList, false⟩ rfl
    (Or.inr (Or.inr ⟨"<p>x</p>".toList, "<article>a</article>".toList, rfl, rfl, by decide, rfl⟩))
  exact ⟨⟨h1.1, h1.2.1⟩, ⟨h2.1, h2.2.1⟩⟩

/-- C5: for a fragment whose trimmed text ends with `</ol>` and that
contains an `<ol>` open tag (the trailing ordered list, located by
last-occurrence search): with a footnote marker in that trailing list the
normalizer wraps it in the `<div class="citations">` container with the
`References` heading; without a marker the fragment is left unchanged. -/
theorem c5_trailing_ol_wrap_iff_marker :
    ∀ (h : List Char) (i : Nat),
      List.isSuffixOf olCloseT (trim h) = true →
      lastOcc olOpenT h = some i →
      (hasFootnoteMark (h.drop i) = true →
        fixFootnotes h = h.take i ++ citationsHeadT ++ h.drop i ++ citationsTailT) ∧
      (hasFootnoteMark (h.drop i) = false → fixFootnotes h = h) := by
  intro h i h1 h2
  constructor <;> intro h3 <;> simp [fixFootnotes, h1, h2, h3]

/-- Witness for C5: a trailing footnote list gets wrapped; a trailing plain
ordered list is left unchanged. -/
theorem c5_witness :
    fixFootnotes "<p>t</p><ol><li id=\"footnote-1\">a</li></ol>".toList
        = "<p>t</p><ol><li id=\"footnote-1\">a</li></ol>".toList.take 8 ++ citationsHeadT ++
          "<p>t</p><ol><li id=\"footnote-1\">a</li></ol>".toList.drop 8 ++ citationsTailT ∧
      fixFootnotes "<p>t</p><ol><li>a</li></ol>".toList = "<p>t</p><ol><li>a</li></ol>".toList :=
  ⟨(c5_trailing_ol_wrap_iff_marker _ 8 (by decide) (by decide)).1 (by decide),
   (c5_trailing_ol_wrap_iff_marker _ 8 (by decide) (by decide)).2 (by decide)⟩

/-! ## C8: idempotence of the normalizer transforms -/

/-- C8 counterexample: the transforms are not all idempotent.  The banner
prepend changes the fragment again on second application, and both
image-removal passes are non-idempotent on fragments where the deletion of a
match concatenates the surrounding text into a new image tag. -/
theorem c8_counterexample_not_idempotent :
    ¬ (stripImgs true (stripImgs true "<im<img aclass=\"remove-me\" b>g class=\"remove-me\" x>".toList)
          = stripImgs true "<im<img aclass=\"remove-me\" b>g class=\"remove-me\" x>".toList ∧
        stripImgs false (stripImgs false "<i<img>mg x>".toList)
          = stripImgs false "<i<img>mg x>".toList ∧
        prependBanner (prependBanner "<p>t</p>".toList) = prependBanner "<p>t</p>".toList) := by
  intro h
  exact absurd h.1 (by decide)

/-- C8 amended: the banner-prepend transform is never idempotent — a second
application always prepends a second banner, strictly growing the fragment
(and the image-removal passes are likewise not idempotent in general, as the
counterexample shows). -/
theorem c8_amended_prepend_never_idempotent :
    ∀ s : List Char,
      prependBanner (prependBanner s) = bannerHtml ++ bannerHtml ++ s ∧
      prependBanner (prependBanner s) ≠ prependBanner s := by
  intro s
  refine ⟨by simp [prependBanner], fun h => ?_⟩
  have hlen := congrArg List.length h
  simp only [prependBanner, List.length_append] at hlen
  have hb : bannerHtml.length ≠ 0 := by decide
  omega

/-! ## C1: order of citations stripping versus injection (DOCX pipeline) -/

set_option maxRecDepth 8000 in
/-- C1 evaluation at a failing input: the normalized fragment contains the
newly generated references container, the template has an article region,
yet the written output no longer contains the container — the
`citationsRegex` strip runs after injection and deletes the first (here: the
new) citations block. -/
theorem c1_eval_strip_deletes_new_container :
    containsSub citationsOpenT
        (normalizeContent "<p>Hi</p><ol><li id=\"footnote-1\">See</li></ol>".toList) = true ∧
      (runDocx ⟨true, some "<p>Hi</p><ol><li id=\"footnote-1\">See</li></ol>".toList,
          some "<article>old</article>".toList, true⟩).written.isSome = true ∧
      containsSub citationsOpenT
        (fsAfter "<article>old</article>".toList
          (runDocx ⟨true, some "<p>Hi</p><ol><li id=\"footnote-1\">See</li></ol>".toList,
            some "<article>old</article>".toList, true⟩).written) = false := by
  refine ⟨by decide, by decide, by decide⟩

/-! ## String-scanning lemmas -/

/-- A pattern is a Boolean prefix of itself followed by anything. -/
theorem isPrefixOf_self_append (x y : List Char) : List.isPrefixOf x (x ++ y) = true := by
  simp [ List.isPrefixOf_iff_prefix]

/-- A longer pattern is never a Boolean prefix of a shorter list. -/
theorem isPrefixOf_eq_false_of_short (x y : List Char) (h : y.length < x.length) :
    List.isPrefixOf x y = false := by
  cases hxy : List.isPrefixOf x y with
  | false => rfl
  | true =>
    exact absurd (( List.isPrefixOf_iff_prefix.mp hxy).length_le) (by omega)

/-- Prefix testing against an append only looks at the first part when that
part is at least as long as the pattern. -/
theorem isPrefixOf_append_left (x a b : List Char) (h : x.length ≤ a.length) :
    List.isPrefixOf x (a ++ b) = List.isPrefixOf x a := by
  cases hxa : List.isPrefixOf x a with
  | true =>
    exact List.isPrefixOf_iff_prefix.mpr
      (( List.isPrefixOf_iff_prefix.mp hxa).trans (List.prefix_append a b))
  | false =>
    cases hxab : List.isPrefixOf x (a ++ b) with
    | false => rfl
    | true =>
      exfalso
      have hpre := List.isPrefixOf_iff_prefix.mp hxab
      have htake : x = (a ++ b).take x.length := List.prefix_iff_eq_take.mp hpre
      have htake2 : (a ++ b).take x.length = a.take x.length := by
        rw [List.take_append_eq_append_take, Nat.sub_eq_zero_of_le h]
        simp
      have : x <+: a := by
        rw [htake, htake2]
        exact List.take_prefix _ _
      rw [ List.isPrefixOf_iff_prefix.mpr this] at hxa
      exact Bool.true_eq_false.mp hxa

/-- If a pattern matches across the boundary of `t ++ b` with `t` short,
then the part of the pattern past `t` matches at the start of `b`. -/
theorem isPrefixOf_append_short (x t b : List Char) (ht : t.length ≤ x.length)
    (h : List.isPrefixOf x (t ++ b) = true) :
    List.isPrefixOf (x.drop t.length) b = true := by
  obtain ⟨r, hr⟩ := List.isPrefixOf_iff_prefix.mp h
  have hb : b = x.drop t.length ++ r := by
    have h2 := congrArg (List.drop t.length) hr
    rw [List.drop_left, List.drop_append_eq_append_drop,
      Nat.sub_eq_zero_of_le ht, List.drop_zero] at h2
    exact h2.symm
  rw [hb]
  exact isPrefixOf_self_append _ _

/-- A match at the head makes `firstOcc` return 0. -/
theorem firstOcc_of_isPrefixOf (pat s : List Char) (h : List.isPrefixOf pat s = true) :
    firstOcc pat s = some 0 := by
  cases s with
  | nil => simp [firstOcc, h]
  | cons c rest => simp [firstOcc, h]

/-- Lemma: `firstOcc` finds the designated occurrence when no earlier position
matches. -/
theorem firstOcc_eq_some (pat a b : List Char)
    (h1 : ∀ j, j < a.length → List.isPrefixOf pat ((a ++ (pat ++ b)).drop j) = false) :
    firstOcc pat (a ++ (pat ++ b)) = some a.length := by
  induction a with
  | nil =>
    simp only [List.nil_append]
    exact firstOcc_of_isPrefixOf _ _ (isPrefixOf_self_append pat b)
  | cons c a' ih =>
    have h0 : List.isPrefixOf pat (c :: (a' ++ (pat ++ b))) = false := by
      have := h1 0 (by simp)
      simpa using this
    have hrec : firstOcc pat (a' ++ (pat ++ b)) = some a'.length := by
      apply ih
      intro j hj
      have := h1 (j + 1) (by simp; omega)
      simpa using this
    simp [firstOcc, h0, hrec]

/-- Lemma: `tryMatch` never matches when the open tag does not occur at all. -/
theorem tryMatch_eq_none (openT closeT : List Char) :
    ∀ s, containsSub openT s = false → tryMatch openT closeT s = none := by
  intro s
  induction s with
  | nil => intro _; rfl
  | cons c rest ih =>
    intro h
    have h1 : List.isPrefixOf openT (c :: rest) = false := by
      have := congrArg (fun x => x) h
      simp only [containsSub, Bool.or_eq_false_iff] at h
      exact h.1
    have h2 : containsSub openT rest = false := by
      simp only [containsSub, Bool.or_eq_false_iff] at h
      exact h.2
    simp [tryMatch, h1, ih h2]

/-- Unfolding equation for `tryMatch` on a cons cell. -/
theorem tryMatch_cons (openT closeT : List Char) (c : Char) (rest : List Char) :
    tryMatch openT closeT (c :: rest)
      = if List.isPrefixOf openT (c :: rest) then
          match firstOcc closeT ((c :: rest).drop openT.length) with
          | some j => some (0, openT.length + j + closeT.length)
          | none => (tryMatch openT closeT rest).map (fun p => (p.1 + 1, p.2 + 1))
        else (tryMatch openT closeT rest).map (fun p => (p.1 + 1, p.2 + 1)) := rfl

/-- The leftmost lazy match of `openT[\s\S]*?closeT` on a string of the
shape `pre ++ openT ++ mid ++ closeT ++ post`, when no earlier open tag and
no earlier close tag interferes. -/
theorem tryMatch_eq_some (openT closeT pre mid post : List Char) (hop : openT ≠ [])
    (h1 : ∀ j, j < pre.length →
      List.isPrefixOf openT ((pre ++ (openT ++ (mid ++ (closeT ++ post)))).drop j) = false)
    (h2 : ∀ j, j < mid.length →
      List.isPrefixOf closeT ((mid ++ (closeT ++ post)).drop j) = false) :
    tryMatch openT closeT (pre ++ (openT ++ (mid ++ (closeT ++ post))))
      = some (pre.length, pre.length + openT.length + mid.length + closeT.length) := by
  induction pre with
  | nil =>
    obtain ⟨o, os, rfl⟩ := List.exists_cons_of_ne_nil hop
    have hs : ([] : List Char) ++ ((o :: os) ++ (mid ++ (closeT ++ post)))
        = o :: (os ++ (mid ++ (closeT ++ post))) := by simp
    rw [hs, tryMatch_cons]
    have hpre : List.isPrefixOf (o :: os) (o :: (os ++ (mid ++ (closeT ++ post)))) = true :=
      isPrefixOf_self_append (o :: os) (mid ++ (closeT ++ post))
    rw [if_pos hpre]
    have hdrop : (o :: (os ++ (mid ++ (closeT ++ post)))).drop (o :: os).length
        = mid ++ (closeT ++ post) := List.drop_left (o :: os) _
    rw [hdrop, firstOcc_eq_some _ _ _ h2]
    simp
  | cons c pre' ih =>
    have h0 : List.isPrefixOf openT
        (c :: (pre' ++ (openT ++ (mid ++ (closeT ++ post))))) = false := by
      have := h1 0 (by simp)
      simpa using this
    have hrec := ih (fun j hj => by
      have := h1 (j + 1) (by simp; omega)
      simpa using this)
    have hs : (c :: pre') ++ (openT ++ (mid ++ (closeT ++ post)))
        = c :: (pre' ++ (openT ++ (mid ++ (closeT ++ post)))) := by simp
    rw [hs, tryMatch_cons, if_neg (by simp [h0]), hrec]
    simp only [Option.map_some', Option.some.injEq, Prod.mk.injEq, List.length_cons]
    exact ⟨trivial, by omega⟩

/-- Splitting a failed substring search at a cons cell. -/
theorem containsSub_cons_false (pat : List Char) (c : Char) (l : List Char)
    (h : containsSub pat (c :: l) = false) :
    List.isPrefixOf pat (c :: l) = false ∧ containsSub pat l = false := by
  simpa [containsSub, Bool.or_eq_false_iff] using h

/-- Splitting a failed replacement-sequence search at a cons cell. -/
theorem hasReplSeq_cons_false (c : Char) (l : List Char) (h : hasReplSeq (c :: l) = false) :
    hasReplSeq l = false ∧
      List.isPrefixOf [dollarC, dollarC] (c :: l) = false ∧
      List.isPrefixOf [dollarC, ampC] (c :: l) = false ∧
      List.isPrefixOf [dollarC, backC] (c :: l) = false ∧
      List.isPrefixOf [dollarC, quotC] (c :: l) = false := by
  simp only [hasReplSeq, Bool.or_eq_false_iff] at h
  obtain ⟨⟨⟨h1, h2⟩, h3⟩, h4⟩ := h
  obtain ⟨h1a, h1b⟩ := containsSub_cons_false _ _ _ h1
  obtain ⟨h2a, h2b⟩ := containsSub_cons_false _ _ _ h2
  obtain ⟨h3a, h3b⟩ := containsSub_cons_false _ _ _ h3
  obtain ⟨h4a, h4b⟩ := containsSub_cons_false _ _ _ h4
  refine ⟨?_, h1a, h2a, h3a, h4a⟩
  simp only [hasReplSeq, Bool.or_eq_false_iff]
  exact ⟨⟨⟨h1b, h2b⟩, h3b⟩, h4b⟩

/-- A replacement string without special `$` sequences is substituted
literally. -/
theorem expandRepl_eq_self (matched before after : List Char) :
    ∀ repl, hasReplSeq repl = false → expandRepl repl matched before after = repl := by
  intro repl
  induction repl with
  | nil => intro _; rfl
  | cons c rest ih =>
    intro h
    cases rest with
    | nil => rfl
    | cons d rest2 =>
      obtain ⟨htail, hdd, hda, hdb, hdq⟩ := hasReplSeq_cons_false c (d :: rest2) h
      by_cases hc : c = dollarC
      · have hd1 : ¬ d = dollarC := by
          intro hd; rw [hc, hd] at hdd; simp [List.isPrefixOf] at hdd
        have hd2 : ¬ d = ampC := by
          intro hd; rw [hc, hd] at hda; simp [List.isPrefixOf] at hda
        have hd3 : ¬ d = backC := by
          intro hd; rw [hc, hd] at hdb; simp [List.isPrefixOf] at hdb
        have hd4 : ¬ d = quotC := by
          intro hd; rw [hc, hd] at hdq; simp [List.isPrefixOf] at hdq
        simp only [expandRepl, if_pos hc, if_neg hd1, if_neg hd2, if_neg hd3, if_neg hd4]
        exact congrArg (List.cons c) (ih htail)
      · simp only [expandRepl, if_neg hc]
        exact congrArg (List.cons c) (ih htail)

/-- Effect of the single-replacement `replace` on a string with a pinned
first match: the region between the tags (tags included) is replaced by the
expanded replacement text; everything before and after survives unchanged. -/
theorem jsReplace1_append (openT closeT repl pre mid post : List Char) (hop : openT ≠ [])
    (h1 : ∀ j, j < pre.length →
      List.isPrefixOf openT ((pre ++ (openT ++ (mid ++ (closeT ++ post)))).drop j) = false)
    (h2 : ∀ j, j < mid.length →
      List.isPrefixOf closeT ((mid ++ (closeT ++ post)).drop j) = false) :
    jsReplace1 openT closeT repl (pre ++ (openT ++ (mid ++ (closeT ++ post))))
      = pre ++ expandRepl repl (openT ++ (mid ++ closeT)) pre post ++ post := by
  have hm := tryMatch_eq_some openT closeT pre mid post hop h1 h2
  have hgroup : pre ++ (openT ++ (mid ++ (closeT ++ post)))
      = (pre ++ (openT ++ (mid ++ closeT))) ++ post := by
    simp [List.append_assoc]
  have hlen : (pre ++ (openT ++ (mid ++ closeT))).length
      = pre.length + openT.length + mid.length + closeT.length := by
    simp [List.length_append]; omega
  have hA : (pre ++ (openT ++ (mid ++ (closeT ++ post)))).take pre.length = pre :=
    List.take_left pre _
  have hB : (pre ++ (openT ++ (mid ++ (closeT ++ post)))).drop
      (pre.length + openT.length + mid.length + closeT.length) = post := by
    rw [hgroup]; exact List.drop_left' hlen
  have hDrop : (pre ++ (openT ++ (mid ++ (closeT ++ post)))).drop pre.length
      = openT ++ (mid ++ (closeT ++ post)) := List.drop_left pre _
  have hgroup2 : openT ++ (mid ++ (closeT ++ post)) = (openT ++ (mid ++ closeT)) ++ post := by
    simp [List.append_assoc]
  have hlen2 : (openT ++ (mid ++ closeT)).length
      = pre.length + openT.length + mid.length + closeT.length - pre.length := by
    simp [List.length_append]; omega
  have hC : ((pre ++ (openT ++ (mid ++ (closeT ++ post)))).drop pre.length).take
      (pre.length + openT.length + mid.length + closeT.length - pre.length)
      = openT ++ (mid ++ closeT) := by
    rw [hDrop, hgroup2]; exact List.take_left' hlen2
  simp only [jsReplace1, hm, hA, hB, hC]

/-! ## C2: Markdown pipeline injection -/

/-- C2 counterexample: for Markdown input `$$` (rendered `<p>$$</p>`), the
written region is not `<article>` + rendering + `</article>`: the `$$` in
the replacement string collapses to a single `$` under the
`$`-substitution of `String.prototype.replace`. -/
theorem c2_counterexample_dollar_mangling :
    (runMd ⟨some "$$".toList, fun _ => some "<p>$$</p>".toList,
        some "A<article>x</article>B".toList, true⟩).written
      = some "A<article>\n<p>$</p>\n</article>B".toList ∧
      "A<article>\n<p>$</p>\n</article>B".toList
        ≠ "A".toList ++ newArticleT "<p>$$</p>".toList ++ "B".toList :=
  ⟨by decide, by decide⟩

/-- C2 amended: for a template with exactly one content region and a
rendered fragment free of `$`-replacement sequences, the Markdown pipeline
writes the template with the region replaced by `<article>`, a newline, the
rendering, a newline, `</article>`, and everything outside the region
byte-identical. -/
theorem c2_amended_region_replaced_frame_intact
    (w : MdWorld) (md html pre mid post : List Char)
    (hs : w.readSource = some md) (hc : w.convert md = some html)
    (hi : w.readIndex = some (pre ++ (articleOpenT ++ (mid ++ (articleCloseT ++ post)))))
    (h1 : ∀ j, j < pre.length → List.isPrefixOf articleOpenT
      ((pre ++ (articleOpenT ++ (mid ++ (articleCloseT ++ post)))).drop j) = false)
    (h2 : ∀ j, j < mid.length → List.isPrefixOf articleCloseT
      ((mid ++ (articleCloseT ++ post)).drop j) = false)
    (hw : w.writeOk = true)
    (hd : hasReplSeq (newArticleT html) = false) :
    (runMd w).written = some (pre ++ newArticleT html ++ post) ∧
      (runMd w).exitCode = 0 ∧ (runMd w).successLogged = true := by
  have hop : articleOpenT ≠ [] := by decide
  have hmatch := tryMatch_eq_some articleOpenT articleCloseT pre mid post hop h1 h2
  have htest : articleTest (pre ++ (articleOpenT ++ (mid ++ (articleCloseT ++ post)))) = true := by
    simp [articleTest, hmatch]
  have hrepl := jsReplace1_append articleOpenT articleCloseT (newArticleT html) pre mid post hop h1 h2
  rw [expandRepl_eq_self _ _ _ _ hd] at hrepl
  refine ⟨?_, ?_, ?_⟩ <;> simp [runMd, hs, hc, hi, htest, hw, hrepl]

/-- Witness for C2 at a concrete one-region template and `$`-free fragment. -/
theorem c2_witness :
    (runMd ⟨some "# t".toList, fun _ => some "<p>x</p>".toList,
        some ("A".toList ++ (articleOpenT ++ ("y".toList ++ (articleCloseT ++ "B".toList)))),
        true⟩).written
      = some ("A".toList ++ newArticleT "<p>x</p>".toList ++ "B".toList) :=
  (c2_amended_region_replaced_frame_intact _ _ _ "A".toList "y".toList "B".toList
    rfl rfl rfl (by decide) (by decide) rfl (by decide)).1

/-! ## C10: templates with several article regions -/

set_option maxRecDepth 8000 in
/-- C10 counterexample: in the DOCX pipeline the text after the first
article region does not stay unchanged — the template's own citations block
(sitting between two article regions) is deleted from the written output by
the post-injection citations strip. -/
theorem c10_counterexample_docx_strips_later_text :
    containsSub "<div class=\"citations\">x</div>".toList
        "<article>a</article><div class=\"citations\">x</div><article>b</article>".toList
        = true ∧
      (runDocx ⟨true, some "<p>q</p>".toList,
          some "<article>a</article><div class=\"citations\">x</div><article>b</article>".toList,
          true⟩).written.isSome = true ∧
      containsSub "<div class=\"citations\">x</div>".toList
        (fsAfter
          "<article>a</article><div class=\"citations\">x</div><article>b</article>".toList
          (runDocx ⟨true, some "<p>q</p>".toList,
            some "<article>a</article><div class=\"citations\">x</div><article>b</article>".toList,
            true⟩).written) = false :=
  ⟨by decide, by decide, by decide⟩

/-- C10 amended: with two or more article regions only the first one
(non-greedy, up to the earliest close tag) is replaced.  In the Markdown
pipeline every byte outside the replaced region is written back unchanged;
in the DOCX pipeline the same holds provided the post-injection document
contains no citations container (otherwise the first such container is
additionally removed, as the counterexample shows). -/
theorem c10_amended_first_region_replaced :
    (∀ (w : MdWorld) (md html pre mid post : List Char),
        w.readSource = some md → w.convert md = some html →
        w.readIndex = some (pre ++ (articleOpenT ++ (mid ++ (articleCloseT ++ post)))) →
        (∀ j, j < pre.length → List.isPrefixOf articleOpenT
          ((pre ++ (articleOpenT ++ (mid ++ (articleCloseT ++ post)))).drop j) = false) →
        (∀ j, j < mid.length → List.isPrefixOf articleCloseT
          ((mid ++ (articleCloseT ++ post)).drop j) = false) →
        w.writeOk = true →
        (runMd w).written = some (pre ++
          expandRepl (newArticleT html) (articleOpenT ++ (mid ++ articleCloseT)) pre post
          ++ post)) ∧
    (∀ (w : DocxWorld) (raw pre mid post : List Char),
        w.sourceExists = true → w.convert = some raw →
        w.readIndex = some (pre ++ (articleOpenT ++ (mid ++ (articleCloseT ++ post)))) →
        (∀ j, j < pre.length → List.isPrefixOf articleOpenT
          ((pre ++ (articleOpenT ++ (mid ++ (articleCloseT ++ post)))).drop j) = false) →
        (∀ j, j < mid.length → List.isPrefixOf articleCloseT
          ((mid ++ (articleCloseT ++ post)).drop j) = false) →
        w.writeOk = true →
        containsSub citationsOpenT (pre ++
          expandRepl (newArticleT (normalizeContent raw))
            (articleOpenT ++ (mid ++ articleCloseT)) pre post ++ post) = false →
        (runDocx w).written = some (pre ++
          expandRepl (newArticleT (normalizeContent raw))
            (articleOpenT ++ (mid ++ articleCloseT)) pre post ++ post)) := by
  have hop : articleOpenT ≠ [] := by decide
  constructor
  · intro w md html pre mid post hs hc hi h1 h2 hw
    have hmatch := tryMatch_eq_some articleOpenT articleCloseT pre mid post hop h1 h2
    have htest : articleTest (pre ++ (articleOpenT ++ (mid ++ (articleCloseT ++ post))))
        = true := by simp [articleTest, hmatch]
    have hrepl := jsReplace1_append articleOpenT articleCloseT (newArticleT html)
      pre mid post hop h1 h2
    simp [runMd, hs, hc, hi, htest, hw, hrepl]
  · intro w raw pre mid post hsrc hc hi h1 h2 hw hcit
    have hmatch := tryMatch_eq_some articleOpenT articleCloseT pre mid post hop h1 h2
    have htest : articleTest (pre ++ (articleOpenT ++ (mid ++ (articleCloseT ++ post))))
        = true := by simp [articleTest, hmatch]
    have hrepl := jsReplace1_append articleOpenT articleCloseT
      (newArticleT (normalizeContent raw)) pre mid post hop h1 h2
    have hnostrip : jsReplace1 citationsOpenT citationsCloseT []
        (pre ++ expandRepl (newArticleT (normalizeContent raw))
          (articleOpenT ++ (mid ++ articleCloseT)) pre post ++ post)
        = pre ++ expandRepl (newArticleT (normalizeContent raw))
          (articleOpenT ++ (mid ++ articleCloseT)) pre post ++ post := by
      rw [jsReplace1, tryMatch_eq_none citationsOpenT citationsCloseT _ hcit]
    have hrun : runDocx w = ⟨0, some (jsReplace1 citationsOpenT citationsCloseT []
        (jsReplace1 articleOpenT articleCloseT (newArticleT (normalizeContent raw))
          (pre ++ (articleOpenT ++ (mid ++ (articleCloseT ++ post)))))), false, false,
        true, true⟩ := by
      rw [runDocx, if_pos hsrc, hc, hi]
      simp only [htest, if_true]
      rw [if_pos hw]
    rw [hrun, hrepl, hnostrip]

set_option maxRecDepth 8000 in
/-- Witness for C10 at concrete two-region templates, in both pipelines. -/
theorem c10_witness :
    (runMd ⟨some "# t".toList, fun _ => some "<p>x</p>".toList,
        some ("A".toList ++ (articleOpenT ++ ("y".toList ++ (articleCloseT ++
          "<article>z</article>".toList)))), true⟩).written
      = some ("A".toList ++
          expandRepl (newArticleT "<p>x</p>".toList)
            (articleOpenT ++ ("y".toList ++ articleCloseT)) "A".toList
            "<article>z</article>".toList
          ++ "<article>z</article>".toList) ∧
      (runDocx ⟨true, some "<p>q</p>".toList,
          some ("A".toList ++ (articleOpenT ++ ("y".toList ++ (articleCloseT ++
            "<article>z</article>".toList)))), true⟩).written
        = some ("A".toList ++
            expandRepl (newArticleT (normalizeContent "<p>q</p>".toList))
              (articleOpenT ++ ("y".toList ++ articleCloseT)) "A".toList
              "<article>z</article>".toList
            ++ "<article>z</article>".toList) :=
  ⟨c10_amended_first_region_replaced.1 _ _ _ "A".toList "y".toList "<article>z</article>".toList
      rfl rfl rfl (by decide) (by decide) rfl,
    c10_amended_first_region_replaced.2 _ _ "A".toList "y".toList "<article>z</article>".toList
      rfl rfl rfl (by decide) (by decide) rfl (by decide)⟩

/-! ## Occurrence counting across appends -/

/-- A pattern matching across the start of `t ++ b` determines `t` when `t`
is not longer than the pattern. -/
theorem eq_take_of_isPrefixOf_append (x t b : List Char) (ht : t.length ≤ x.length)
    (h : List.isPrefixOf x (t ++ b) = true) : t = x.take t.length := by
  obtain ⟨r, hr⟩ := List.isPrefixOf_iff_prefix.mp h
  have h2 := congrArg (List.take t.length) hr
  rw [List.take_left, List.take_append_eq_append_take, Nat.sub_eq_zero_of_le ht] at h2
  simpa using h2.symm

/-- No straddling match at a short suffix of `a`, certified by comparing the
suffix with the corresponding pattern slice. -/
theorem isPrefixOf_append_boundary_false (pat a b : List Char)
    (hd : ∀ j, j < a.length → a.drop j ≠ pat.take (a.length - j)) :
    ∀ j, j < a.length → a.length - j < pat.length →
      List.isPrefixOf pat (a.drop j ++ b) = false := by
  intro j hj hshort
  cases hp : List.isPrefixOf pat (a.drop j ++ b) with
  | false => rfl
  | true =>
    exfalso
    have hlen : (a.drop j).length ≤ pat.length := by
      rw [List.length_drop]; omega
    have h2 := eq_take_of_isPrefixOf_append pat (a.drop j) b hlen hp
    rw [List.length_drop] at h2
    exact hd j hj h2

/-- No straddling match at a short suffix of `a`, certified by the pattern
slices not matching the start of `b`. -/
theorem isPrefixOf_append_boundary_false_right (pat a b : List Char)
    (hp : ∀ k, 0 < k → k < pat.length → List.isPrefixOf (pat.drop k) b = false) :
    ∀ j, j < a.length → a.length - j < pat.length →
      List.isPrefixOf pat (a.drop j ++ b) = false := by
  intro j hj hshort
  cases hx : List.isPrefixOf pat (a.drop j ++ b) with
  | false => rfl
  | true =>
    exfalso
    have hlen : (a.drop j).length ≤ pat.length := by rw [List.length_drop]; omega
    have h2 := isPrefixOf_append_short pat (a.drop j) b hlen hx
    rw [List.length_drop] at h2
    have h0 : 0 < a.length - j := by omega
    rw [hp (a.length - j) h0 hshort] at h2
    exact Bool.false_ne_true h2

/-- Unfolding equation for `countOcc` at a cons cell. -/
theorem countOcc_cons (pat : List Char) (c : Char) (l : List Char) :
    countOcc pat (c :: l)
      = (if List.isPrefixOf pat (c :: l) then 1 else 0) + countOcc pat l := rfl

/-- Occurrences in an append split when no occurrence straddles the
boundary. -/
theorem countOcc_append (pat a b : List Char)
    (hb : ∀ j, j < a.length → a.length - j < pat.length →
      List.isPrefixOf pat (a.drop j ++ b) = false) :
    countOcc pat (a ++ b) = countOcc pat a + countOcc pat b := by
  induction a with
  | nil => simp [countOcc]
  | cons c a' ih =>
    have hhead : List.isPrefixOf pat (c :: (a' ++ b)) = List.isPrefixOf pat (c :: a') := by
      by_cases hl : pat.length ≤ (c :: a').length
      · have h2 := isPrefixOf_append_left pat (c :: a') b hl
        simpa using h2
      · push_neg at hl
        rw [isPrefixOf_eq_false_of_short pat (c :: a') hl]
        have h2 := hb 0 (by simp) (by simp at hl ⊢; omega)
        simpa using h2
    have hb' : ∀ j, j < a'.length → a'.length - j < pat.length →
        List.isPrefixOf pat (a'.drop j ++ b) = false := by
      intro j hj hs
      have h2 := hb (j + 1) (by simp; omega) (by simp; omega)
      simpa using h2
    rw [show ((c :: a') ++ b) = c :: (a' ++ b) from rfl, countOcc_cons, countOcc_cons,
      hhead, ih hb']
    omega

/-- Lemma: `containsSub` is the substring (infix) relation. -/
theorem containsSub_iff_occurs (pat s : List Char) :
    containsSub pat s = true ↔ pat <:+: s := by
  induction s with
  | nil =>
    simp [containsSub, List.isPrefixOf_iff_prefix]
  | cons c rest ih =>
    simp [containsSub, List.infix_cons_iff, List.isPrefixOf_iff_prefix, ih]

/-- No substring occurrence means an occurrence count of zero. -/
theorem countOcc_eq_zero_of_not_contains (pat s : List Char)
    (h : containsSub pat s = false) : countOcc pat s = 0 := by
  induction s with
  | nil => rfl
  | cons c rest ih =>
    obtain ⟨h1, h2⟩ := containsSub_cons_false pat c rest h
    simp [countOcc, h1, ih h2]

/-- Substring absence transfers to prefixes. -/
theorem containsSub_take_false (pat r : List Char) (j : Nat)
    (h : containsSub pat r = false) : containsSub pat (r.take j) = false := by
  cases hc : containsSub pat (r.take j) with
  | false => rfl
  | true =>
    exfalso
    have hinf : pat <:+: r := ((containsSub_iff_occurs _ _).mp hc).trans
      ( List.take_prefix j r).isInfix
    rw [(containsSub_iff_occurs _ _).mpr hinf] at h
    exact Bool.noConfusion h

/-- Substring absence transfers to suffixes. -/
theorem containsSub_drop_false (pat r : List Char) (j : Nat)
    (h : containsSub pat r = false) : containsSub pat (r.drop j) = false := by
  cases hc : containsSub pat (r.drop j) with
  | false => rfl
  | true =>
    exfalso
    have hinf : pat <:+: r := ((containsSub_iff_occurs _ _).mp hc).trans
      (List.drop_suffix j r).isInfix
    rw [(containsSub_iff_occurs _ _).mpr hinf] at h
    exact Bool.noConfusion h

/-- A pattern absent from a concrete prefix region (both in the interior and
across the boundary) does not match anywhere before the end of that region. -/
theorem isPrefixOf_prefix_region_false (pat a b : List Char)
    (hc : ∀ j, j < a.length → List.isPrefixOf pat (a.drop j) = false)
    (hd : ∀ j, j < a.length → a.drop j ≠ pat.take (a.length - j)) :
    ∀ j, j < a.length → List.isPrefixOf pat ((a ++ b).drop j) = false := by
  intro j hj
  rw [List.drop_append_eq_append_drop, Nat.sub_eq_zero_of_le (le_of_lt hj), List.drop_zero]
  by_cases hl : pat.length ≤ (a.drop j).length
  · rw [isPrefixOf_append_left pat (a.drop j) b hl]
    exact hc j hj
  · push_neg at hl
    rw [List.length_drop] at hl
    exact isPrefixOf_append_boundary_false pat a b hd j hj hl

/-! ## Soundness of the scanners and deadness of the footnote fallback -/

/-- Soundness of `lastOcc`: a reported index really matches. -/
theorem lastOcc_sound (pat : List Char) :
    ∀ s i, lastOcc pat s = some i → List.isPrefixOf pat (s.drop i) = true := by
  intro s
  induction s with
  | nil => intro i h; simp [lastOcc] at h
  | cons c rest ih =>
    intro i h
    rw [lastOcc] at h
    rcases hrec : lastOcc pat rest with _ | j
    · rw [hrec] at h
      by_cases hp : List.isPrefixOf pat (c :: rest) = true
      · rw [if_pos hp] at h
        injection h with h'
        subst h'
        simpa using hp
      · rw [if_neg hp] at h
        cases h
    · rw [hrec] at h
      injection h with h'
      subst h'
      simpa [List.drop_succ_cons] using ih j hrec

/-- Soundness of `existsOlCloseWs`: success exhibits a `</ol>` followed only by
whitespace. -/
theorem existsOlCloseWs_sound :
    ∀ u, existsOlCloseWs u = true →
      ∃ k, List.isPrefixOf olCloseT (u.drop k) = true ∧ allWs (u.drop (k + 5)) = true := by
  intro u
  induction u with
  | nil => intro h; simp [existsOlCloseWs] at h
  | cons c rest ih =>
    intro h
    simp only [existsOlCloseWs, Bool.or_eq_true, Bool.and_eq_true] at h
    rcases h with ⟨h1, h2⟩ | h3
    · refine ⟨0, by simpa using h1, ?_⟩
      simpa using h2
    · obtain ⟨k, hk1, hk2⟩ := ih h3
      refine ⟨k + 1, by simpa [List.drop_succ_cons] using hk1, ?_⟩
      have harith : k + 1 + 5 = (k + 5) + 1 := by omega
      rw [harith, List.drop_succ_cons]
      exact hk2

/-- Soundness of `anchoredOlStart`: a fallback match guarantees a `</ol>`
followed only by whitespace somewhere in the string. -/
theorem anchoredOlStart_sound :
    ∀ h i, anchoredOlStart h = some i →
      ∃ j, List.isPrefixOf olCloseT (h.drop j) = true ∧ allWs (h.drop (j + 5)) = true := by
  intro h
  induction h with
  | nil => intro i hh; simp [anchoredOlStart] at hh
  | cons c rest ih =>
    intro i hh
    rw [anchoredOlStart] at hh
    by_cases hg : (List.isPrefixOf olOpenT (c :: rest) && existsOlCloseWs (rest.drop 3)) = true
    · have h2 : existsOlCloseWs (rest.drop 3) = true := by
        simp only [Bool.and_eq_true] at hg
        exact hg.2
      obtain ⟨k, hk1, hk2⟩ := existsOlCloseWs_sound _ h2
      rw [List.drop_drop] at hk1 hk2
      refine ⟨4 + k, ?_, ?_⟩
      · have harith : 4 + k = (3 + k) + 1 := by omega
        rw [harith, List.drop_succ_cons]
        exact hk1
      · have harith : 4 + k + 5 = (3 + (k + 5)) + 1 := by omega
        rw [harith, List.drop_succ_cons]
        have harith2 : 3 + (k + 5) = 3 + k + 5 := by omega
        rw [harith2]
        exact hk2
    · rw [if_neg hg] at hh
      rcases hrec : anchoredOlStart rest with _ | i'
      · rw [hrec] at hh; cases hh
      · obtain ⟨j, hj1, hj2⟩ := ih i' hrec
        refine ⟨j + 1, by simpa [List.drop_succ_cons] using hj1, ?_⟩
        have harith : j + 1 + 5 = (j + 5) + 1 := by omega
        rw [harith, List.drop_succ_cons]
        exact hj2

/-- Applying `trimRight` to a string ending in `</ol>` followed only by whitespace
removes exactly that whitespace. -/
theorem trimRight_olClose_ws (z tail : List Char) (hws : allWs tail = true) :
    trimRight (z ++ (olCloseT ++ tail)) = z ++ olCloseT := by
  have hmem : ∀ a ∈ tail.reverse, wsChar a = true := by
    intro a ha
    exact List.all_eq_true.mp hws a (List.mem_reverse.mp ha)
  have hrev : (z ++ (olCloseT ++ tail)).reverse
      = tail.reverse ++ (olCloseT.reverse ++ z.reverse) := by
    simp [List.reverse_append]
  have holrev : olCloseT.reverse ++ z.reverse = '>' :: ("lo/<".toList ++ z.reverse) := rfl
  rw [trimRight, hrev, List.dropWhile_append_of_pos hmem, holrev,
    List.dropWhile_cons_of_neg (by decide), ← holrev]
  simp [List.reverse_append]

/-- The function `trimLeft` keeps any suffix that starts with a non-whitespace
character. -/
theorem trimLeft_keeps_tail (x : List Char) (c : Char) (t : List Char)
    (hc : wsChar c = false) :
    ∃ z, trimLeft (x ++ (c :: t)) = z ++ (c :: t) := by
  rw [trimLeft, List.dropWhile_append]
  by_cases he : (x.dropWhile wsChar).isEmpty = true
  · refine ⟨[], ?_⟩
    rw [if_pos he, List.dropWhile_cons_of_neg (by simp [hc]), List.nil_append]
  · refine ⟨x.dropWhile wsChar, ?_⟩
    rw [if_neg he]

/-- Deadness of the footnote fallback: whenever the end-anchored regex
matches, the trimmed fragment already ends with `</ol>`, so the primary
branch would have been taken. -/
theorem anchored_implies_trim_endsWith (h : List Char) (i : Nat)
    (ha : anchoredOlStart h = some i) :
    List.isSuffixOf olCloseT (trim h) = true := by
  obtain ⟨j, hcl, hws⟩ := anchoredOlStart_sound h i ha
  have h1 : olCloseT ++ (h.drop j).drop olCloseT.length = h.drop j :=
    List.prefix_iff_eq_append.mp ( List.isPrefixOf_iff_prefix.mp hcl)
  have h2 : h.drop j = olCloseT ++ h.drop (j + 5) := by
    rw [← h1, List.drop_drop, show olCloseT.length = 5 from rfl]
  have hdecomp : h = h.take j ++ (olCloseT ++ h.drop (j + 5)) := by
    calc h = h.take j ++ h.drop j := (List.take_append_drop j h).symm
      _ = h.take j ++ (olCloseT ++ h.drop (j + 5)) := by rw [h2]
  have hshape : olCloseT ++ h.drop (j + 5) = '<' :: ("/ol>".toList ++ h.drop (j + 5)) := rfl
  rw [trim, hdecomp, hshape]
  obtain ⟨z, hz⟩ := trimLeft_keeps_tail (h.take j) '<' ("/ol>".toList ++ h.drop (j + 5))
    (by decide)
  rw [hz, ← hshape, trimRight_olClose_ws z (h.drop (j + 5)) hws]
  simp [List.isSuffixOf_iff_suffix]

/-! ## C4: images after normalization -/

set_option maxRecDepth 8000 in
/-- C4 counterexample: deleting an image-tag match can concatenate the
surrounding text into a new image tag, so the normalized fragment can
contain a second image element besides the banner. -/
theorem c4_counterexample_residual_image :
    normalizeContent "<i<img>mg x>".toList = bannerHtml ++ "<img x>".toList ∧
      countOcc imgOpenT (normalizeContent "<i<img>mg x>".toList) = 2 :=
  ⟨by decide, by decide⟩

set_option maxRecDepth 8000 in
/-- C4 amended: whenever the two image-removal passes leave no residual
`<img` text (true for well-formed converter output, whose text content is
HTML-escaped), the normalized fragment starts with the banner and contains
exactly one image-element occurrence — the banner's. -/
theorem c4_amended_banner_only_image (s : List Char)
    (hres : containsSub imgOpenT (stripImgs false (stripImgs true s)) = false) :
    ∃ rest, normalizeContent s = bannerHtml ++ rest ∧
      countOcc imgOpenT (normalizeContent s) = 1 := by
  set r := stripImgs false (stripImgs true s) with hr
  have hnorm : normalizeContent s = fixFootnotes (bannerHtml ++ r) := rfl
  have hcr : countOcc imgOpenT r = 0 := countOcc_eq_zero_of_not_contains _ _ hres
  have hbd : ∀ b : List Char, ∀ j, j < bannerHtml.length →
      bannerHtml.length - j < imgOpenT.length →
      List.isPrefixOf imgOpenT (bannerHtml.drop j ++ b) = false := fun b =>
    isPrefixOf_append_boundary_false imgOpenT bannerHtml b (by decide)
  have hcb : ∀ b : List Char, countOcc imgOpenT (bannerHtml ++ b)
      = 1 + countOcc imgOpenT b := by
    intro b
    rw [countOcc_append imgOpenT bannerHtml b (hbd b),
      show countOcc imgOpenT bannerHtml = 1 from by decide]
  have hpHead : ∀ X : List Char, ∀ k, 0 < k → k < imgOpenT.length →
      List.isPrefixOf (imgOpenT.drop k) (citationsHeadT ++ X) = false := by
    intro X k hk0 hk4
    rw [show imgOpenT.length = 4 from rfl] at hk4
    interval_cases k
    · rw [isPrefixOf_append_left _ _ _ (by decide)]; decide
    · rw [isPrefixOf_append_left _ _ _ (by decide)]; decide
    · rw [isPrefixOf_append_left _ _ _ (by decide)]; decide
  have hpTail : ∀ k, 0 < k → k < imgOpenT.length →
      List.isPrefixOf (imgOpenT.drop k) citationsTailT = false := by
    intro k hk0 hk4
    rw [show imgOpenT.length = 4 from rfl] at hk4
    interval_cases k <;> decide
  by_cases hc1 : List.isSuffixOf olCloseT (trim (bannerHtml ++ r)) = true
  · rcases hlo : lastOcc olOpenT (bannerHtml ++ r) with _ | i
    · have hfix : fixFootnotes (bannerHtml ++ r) = bannerHtml ++ r := by
        simp [fixFootnotes, hc1, hlo]
      refine ⟨r, by rw [hnorm, hfix], ?_⟩
      rw [hnorm, hfix, hcb, hcr]
    · by_cases hm : hasFootnoteMark ((bannerHtml ++ r).drop i) = true
      · have hsound := lastOcc_sound olOpenT (bannerHtml ++ r) i hlo
        have hige : bannerHtml.length ≤ i := by
          by_contra hlt
          push_neg at hlt
          rw [isPrefixOf_prefix_region_false olOpenT bannerHtml r (by decide) (by decide)
            i hlt] at hsound
          exact Bool.noConfusion hsound
        have htake : (bannerHtml ++ r).take i
            = bannerHtml ++ r.take (i - bannerHtml.length) := by
          rw [List.take_append_eq_append_take, List.take_of_length_le hige]
        have hdrop : (bannerHtml ++ r).drop i = r.drop (i - bannerHtml.length) := by
          rw [List.drop_append_eq_append_drop, List.drop_of_length_le hige, List.nil_append]
        have hshape : fixFootnotes (bannerHtml ++ r)
            = bannerHtml ++ (r.take (i - bannerHtml.length)
              ++ (citationsHeadT ++ (r.drop (i - bannerHtml.length) ++ citationsTailT))) := by
          have hm2 : hasFootnoteMark (r.drop (i - bannerHtml.length)) = true := by
            rw [← hdrop]; exact hm
          simp [fixFootnotes, hc1, hlo, hm, hm2, htake, hdrop, List.append_assoc]
        have hct : countOcc imgOpenT (r.take (i - bannerHtml.length)) = 0 :=
          countOcc_eq_zero_of_not_contains _ _ (containsSub_take_false _ _ _ hres)
        have hcd : countOcc imgOpenT (r.drop (i - bannerHtml.length)) = 0 :=
          countOcc_eq_zero_of_not_contains _ _ (containsSub_drop_false _ _ _ hres)
        have hstep3 : countOcc imgOpenT (r.drop (i - bannerHtml.length) ++ citationsTailT)
            = countOcc imgOpenT (r.drop (i - bannerHtml.length))
              + countOcc imgOpenT citationsTailT :=
          countOcc_append _ _ _
            (isPrefixOf_append_boundary_false_right imgOpenT _ citationsTailT
              (fun k hk0 hk4 => hpTail k hk0 hk4))
        have hstep2 : countOcc imgOpenT
            (citationsHeadT ++ (r.drop (i - bannerHtml.length) ++ citationsTailT))
            = countOcc imgOpenT citationsHeadT
              + countOcc imgOpenT (r.drop (i - bannerHtml.length) ++ citationsTailT) :=
          countOcc_append _ _ _
            (isPrefixOf_append_boundary_false imgOpenT citationsHeadT _ (by decide))
        have hstep1 : countOcc imgOpenT (r.take (i - bannerHtml.length)
              ++ (citationsHeadT ++ (r.drop (i - bannerHtml.length) ++ citationsTailT)))
            = countOcc imgOpenT (r.take (i - bannerHtml.length))
              + countOcc imgOpenT
                (citationsHeadT ++ (r.drop (i - bannerHtml.length) ++ citationsTailT)) :=
          countOcc_append _ _ _
            (isPrefixOf_append_boundary_false_right imgOpenT _ _ (hpHead _))
        refine ⟨r.take (i - bannerHtml.length)
          ++ (citationsHeadT ++ (r.drop (i - bannerHtml.length) ++ citationsTailT)),
          by rw [hnorm, hshape], ?_⟩
        rw [hnorm, hshape, hcb, hstep1, hstep2, hstep3, hct, hcd,
          show countOcc imgOpenT citationsHeadT = 0 from by decide,
          show countOcc imgOpenT citationsTailT = 0 from by decide]
      · have hfix : fixFootnotes (bannerHtml ++ r) = bannerHtml ++ r := by
          simp [fixFootnotes, hc1, hlo, hm]
        refine ⟨r, by rw [hnorm, hfix], ?_⟩
        rw [hnorm, hfix, hcb, hcr]
  · rcases han : anchoredOlStart (bannerHtml ++ r) with _ | i
    · have hfix : fixFootnotes (bannerHtml ++ r) = bannerHtml ++ r := by
        simp [fixFootnotes, hc1, han]
      refine ⟨r, by rw [hnorm, hfix], ?_⟩
      rw [hnorm, hfix, hcb, hcr]
    · exact absurd (anchored_implies_trim_endsWith _ i han) hc1

set_option maxRecDepth 8000 in
/-- Witness for C4 on a fragment whose embedded image is removed cleanly. -/
theorem c4_witness :
    containsSub imgOpenT
        (stripImgs false (stripImgs true "<p>x</p><img src=\"a.png\">".toList)) = false ∧
      countOcc imgOpenT (normalizeContent "<p>x</p><img src=\"a.png\">".toList) = 1 := by
  obtain ⟨rest, h1, h2⟩ := c4_amended_banner_only_image
    "<p>x</p><img src=\"a.png\">".toList (by decide)
  exact ⟨by decide, h2⟩
